import Mathlib

/-!
Verification development for `git-polish-history`, a tool that replays a
linear sequence of commits one at a time onto a new base, running a
build/test command after each replayed commit and pausing when a build
fails or a cherry-pick conflicts.

The definitions below are a shallow embedding of the newest iteration of
the program (the gogit-based v0.2 source, with the commit-creation details
taken from the git2go iteration, whose `makeCommit` spells out what the
`git cherry-pick` subprocess does).  External git effects (merging two
trees, running the build command) enter the model as explicit oracle
functions; everything the tool itself computes is translated directly.
-/

set_option maxRecDepth 4000

namespace GitPolishHistory

/-- Commit identifiers.  Pre-existing commits are named externally
(`ext`); commits created by the tool are content-addressed by their
fields (`made`), mirroring that a git object id is a hash of the commit
content, so two commits with different content have different ids.
Every commit the tool itself creates has exactly one parent
(`CreateCommit(..., headCommit)`, or `Amend` of a single-parent head). -/
inductive Oid where
  | ext (name : String)
  | made (author committer message tree : String) (parent : Oid)
deriving DecidableEq, Repr

/-- Metadata of a pre-existing commit, as read through the git object
store: author, committer, message, tree, and the list of parent ids. -/
structure ExtMeta where
  author : String
  committer : String
  message : String
  tree : String
  parents : List Oid

/-- The read-only part of a repository that the tool consumes: metadata
of every pre-existing commit (total, since the model has no missing
objects) and the signature returned by `DefaultSignature`. -/
structure Repo where
  extMeta : String → ExtMeta
  defaultSig : String

/-- Parent ids of a commit (`Parents` / `ParentCount` + `Parent` in the
source).  A commit created by the tool has exactly its recorded single
parent. -/
def Repo.parentsOf (r : Repo) : Oid → List Oid
  | .ext n => (r.extMeta n).parents
  | .made _ _ _ _ p => [p]

/-- Author of a commit (`commit.Author()`). -/
def Repo.authorOf (r : Repo) : Oid → String
  | .ext n => (r.extMeta n).author
  | .made a _ _ _ _ => a

/-- Message of a commit (`commit.Message()`). -/
def Repo.messageOf (r : Repo) : Oid → String
  | .ext n => (r.extMeta n).message
  | .made _ _ m _ _ => m

/-- The two failure modes of the commit walk: `nonLinearHistory` is the
v0.2 error `Cannot handle commits with more than one parent`, and
`startNotFound` is `History does not contain start commit`. -/
inductive WalkError where
  | nonLinearHistory
  | startNotFound
deriving DecidableEq, Repr

/-- Model of `getCommits` (v0.2): starting from `cur` (HEAD), follow
single-parent links until `start` is reached, collecting each visited
commit in walk order (newest first).  Zero parents means ancestry is
exhausted without finding the start; more than one parent is a merge.
`fuel` bounds the recursion: the Go loop is unbounded and would diverge
only on a cyclic parent graph, which real git object stores exclude, so
`none` (fuel ran out) has no counterpart in the program. -/
def getCommits (r : Repo) (start : Oid) : Oid → Nat → Option (Except WalkError (List Oid))
  | cur, 0 => if cur = start then some (Except.ok []) else none
  | cur, fuel + 1 =>
    if cur = start then some (Except.ok [])
    else
      match r.parentsOf cur with
      | [] => some (Except.error WalkError.startNotFound)
      | [p] => (getCommits r start p fuel).map (Except.map (fun cs => cur :: cs))
      | _ :: _ :: _ => some (Except.error WalkError.nonLinearHistory)

/-- A linear single-parent chain: starting from `tip`, the walk visits
exactly the commits of `ds` (newest first) and then reaches `start`. -/
inductive DescChain (r : Repo) (start : Oid) : Oid → List Oid → Prop
  | nil : DescChain r start start []
  | cons {d p : Oid} {ds : List Oid} :
      d ≠ start → r.parentsOf d = [p] → DescChain r start p ds →
      DescChain r start d (d :: ds)

/-- On a linear chain with enough fuel, the walk succeeds and returns the
chain, newest first. -/
theorem getCommits_of_descChain (r : Repo) (start : Oid) {tip : Oid} {ds : List Oid}
    (h : DescChain r start tip ds) :
    ∀ fuel, ds.length ≤ fuel → getCommits r start tip fuel = some (Except.ok ds) := by
  induction h with
  | nil =>
    intro fuel _
    cases fuel <;> simp [getCommits]
  | cons hne hp _ ih =>
    intro fuel hl
    match fuel, hl with
    | fuel + 1, hl =>
      rw [getCommits, if_neg hne, hp]
      simp [ih fuel (Nat.le_of_succ_le_succ hl), Except.map]

/-- C3: the commit walk fails with the non-linear-history error the
moment it encounters a commit with more than one parent, fails with the
distinct start-not-found error when a commit with zero parents is reached
before the starting point, and on a linear chain reaching the start it
succeeds, failing with neither. -/
theorem getCommits_error_classification (r : Repo) (start cur : Oid) (fuel : Nat)
    (hne : cur ≠ start) :
    ((∃ a b t, r.parentsOf cur = a :: b :: t) →
        getCommits r start cur (fuel + 1) = some (Except.error WalkError.nonLinearHistory)) ∧
    (r.parentsOf cur = [] →
        getCommits r start cur (fuel + 1) = some (Except.error WalkError.startNotFound)) ∧
    WalkError.nonLinearHistory ≠ WalkError.startNotFound ∧
    (∀ ds : List Oid, DescChain r start cur ds → ds.length ≤ fuel + 1 →
        getCommits r start cur (fuel + 1) = some (Except.ok ds)) := by
  refine ⟨?_, ?_, by simp, ?_⟩
  · rintro ⟨a, b, t, hp⟩
    rw [getCommits, if_neg hne, hp]
  · intro hp
    rw [getCommits, if_neg hne, hp]
  · intro ds h hl
    exact getCommits_of_descChain r start h (fuel + 1) hl

/-- Concrete repository for the `getCommits` examples: `c2 → c1 → base`,
a merge commit `m` with two parents, and a root commit `root` with no
parents. -/
def walkRepo : Repo where
  extMeta n :=
    if n = "c2" then ⟨"al", "al", "second", "t2", [Oid.ext "c1"]⟩
    else if n = "c1" then ⟨"al", "al", "first", "t1", [Oid.ext "base"]⟩
    else if n = "m" then ⟨"al", "al", "merge", "tm", [Oid.ext "c1", Oid.ext "base"]⟩
    else if n = "root" then ⟨"al", "al", "root", "t0", []⟩
    else ⟨"", "", "", "", []⟩
  defaultSig := "sig"

theorem getCommits_error_classification_witness :
    getCommits walkRepo (Oid.ext "base") (Oid.ext "m") 4 =
        some (Except.error WalkError.nonLinearHistory) ∧
    getCommits walkRepo (Oid.ext "base") (Oid.ext "root") 4 =
        some (Except.error WalkError.startNotFound) ∧
    getCommits walkRepo (Oid.ext "base") (Oid.ext "c2") 4 =
        some (Except.ok [Oid.ext "c2", Oid.ext "c1"]) := by
  have hm := getCommits_error_classification walkRepo (Oid.ext "base") (Oid.ext "m") 3
    (by decide)
  have hr := getCommits_error_classification walkRepo (Oid.ext "base") (Oid.ext "root") 3
    (by decide)
  have hc := getCommits_error_classification walkRepo (Oid.ext "base") (Oid.ext "c2") 3
    (by decide)
  refine ⟨hm.1 ⟨Oid.ext "c1", Oid.ext "base", [], rfl⟩, hr.2.1 rfl, ?_⟩
  exact hc.2.2.2 [Oid.ext "c2", Oid.ext "c1"]
    (DescChain.cons (by decide) rfl (DescChain.cons (by decide) rfl DescChain.nil))
    (by decide)

/-- The in-memory session, mirroring the Go `state` struct minus the
repository handle: originating branch name (empty for detached), build
command, build directory, and the pending commits, newest first. -/
structure St where
  branchName : String
  buildCommand : String
  buildDirectory : String
  commits : List Oid
deriving DecidableEq, Repr

/-- The persisted checkpoint contents, one field per state file written
by `writeState`: build command, build directory, branch name, and the
pending commit list. -/
structure Checkpoint where
  buildCommand : String
  buildDirectory : String
  branchName : String
  commits : List Oid
deriving DecidableEq, Repr

/-- The mutable repository facts the tool manipulates: the current HEAD,
the commit objects created so far by the tool, the `CHERRY_PICK_HEAD`
marker of an interrupted cherry-pick, the on-disk checkpoint, and
whether the working copy or index differs from HEAD (`hasChanges`). -/
structure World where
  head : Oid
  objects : List Oid
  cherryPickHead : Option Oid
  checkpoint : Option Checkpoint
  dirty : Bool
deriving DecidableEq, Repr

/-- Outcome of merging one commit's changes onto the current HEAD's
tree, as reported by the cherry-pick primitive: either a clean merged
tree, or a set of conflicting paths. -/
inductive MergeResult where
  | clean (tree : String)
  | conflicts (paths : List String)
deriving DecidableEq, Repr

/-- Oracle for the cherry-pick merge: a function of the current HEAD and
the commit being replayed (git computes it deterministically from their
trees). -/
abbrev MergeFun := Oid → Oid → MergeResult

/-- Oracle for the build command's exit status: a function of the
command, the directory it runs in, the current HEAD, and whether
uncommitted changes are present in the working copy.  `true` is exit
status zero. -/
abbrev BuildFun := String → String → Oid → Bool → Bool

/-- Model of `tryBuild`: run the session's build command in the
session's build directory against the current working copy. -/
def tryBuild (build : BuildFun) (st : St) (head : Oid) (dirty : Bool) : Bool :=
  build st.buildCommand st.buildDirectory head dirty

/-- Model of `writeState`: persist the session's four fields as the
checkpoint. -/
def saveCheckpoint (st : St) (w : World) : World :=
  { w with checkpoint := some ⟨st.buildCommand, st.buildDirectory, st.branchName, st.commits⟩ }

/-- How a single replay step ended. -/
inductive StepOutcome where
  | checkedOut
  | replayed (newId : Oid)
  | conflict (paths : List String)
  | badParent
deriving DecidableEq, Repr

/-- One iteration body of the `work` loop, applied to the popped commit
`c`: if HEAD equals the commit's single parent, check the commit out
(`checkout` — HEAD moves to the commit itself, no object is created);
otherwise cherry-pick it: a conflicted merge leaves the working copy
conflicted with `CHERRY_PICK_HEAD` set, a clean merge creates a brand
new commit (`makeCommit`: original author and message, the repository's
default signature as committer, the merged tree, current HEAD as sole
parent) and moves HEAD to it, clearing the cherry-pick state.  A commit
without exactly one parent is a hard error. -/
def workStep (r : Repo) (merge : MergeFun) (w : World) (c : Oid) : World × StepOutcome :=
  match r.parentsOf c with
  | [p] =>
    if w.head = p then
      ({ w with head := c, dirty := false }, StepOutcome.checkedOut)
    else
      match merge w.head c with
      | MergeResult.conflicts paths =>
        ({ w with cherryPickHead := some c, dirty := true }, StepOutcome.conflict paths)
      | MergeResult.clean t =>
        let newId := Oid.made (r.authorOf c) r.defaultSig (r.messageOf c) t w.head
        ({ w with head := newId, objects := w.objects ++ [newId],
                  cherryPickHead := none, dirty := false },
         StepOutcome.replayed newId)
  | _ => (w, StepOutcome.badParent)

/-- How the `work` loop returned. -/
inductive WorkResult where
  | done
  | pausedConflict (paths : List String)
  | pausedBuildFailure
  | badParent (c : Oid)
deriving DecidableEq, Repr

/-- The `work` loop, recursing on fuel so that it stays executable; the
wrapper `work` passes the pending-list length, which makes the fuel
guard coincide with the Go loop guard `len(st.commits) > 0` (each
iteration removes exactly one commit).  Each iteration removes the LAST
commit of the list, applies `workStep`, and on success runs the build:
a conflict or a failed build persists the (already shrunk) session via
`writeState` and pauses; an empty list deletes the checkpoint and
finishes.  The last component collects the commits in the order they
were taken from the list. -/
def workGo (r : Repo) (merge : MergeFun) (build : BuildFun) :
    Nat → St → World → St × World × WorkResult × List Oid
  | 0, st, w => (st, { w with checkpoint := none }, WorkResult.done, [])
  | fuel + 1, st, w =>
    match st.commits.getLast? with
    | none => (st, { w with checkpoint := none }, WorkResult.done, [])
    | some c =>
      let st' : St := { st with commits := st.commits.dropLast }
      match workStep r merge w c with
      | (w', StepOutcome.badParent) => (st', w', WorkResult.badParent c, [c])
      | (w', StepOutcome.conflict paths) =>
        (st', saveCheckpoint st' w', WorkResult.pausedConflict paths, [c])
      | (w', StepOutcome.checkedOut) =>
        if tryBuild build st' w'.head false then
          let rest := workGo r merge build fuel st' w'
          (rest.1, rest.2.1, rest.2.2.1, c :: rest.2.2.2)
        else (st', saveCheckpoint st' w', WorkResult.pausedBuildFailure, [c])
      | (w', StepOutcome.replayed _) =>
        if tryBuild build st' w'.head false then
          let rest := workGo r merge build fuel st' w'
          (rest.1, rest.2.1, rest.2.2.1, c :: rest.2.2.2)
        else (st', saveCheckpoint st' w', WorkResult.pausedBuildFailure, [c])

/-- Model of `work`: run the loop with exactly enough fuel for the
pending list. -/
def work (r : Repo) (merge : MergeFun) (build : BuildFun) (st : St) (w : World) :
    St × World × WorkResult × List Oid :=
  workGo r merge build st.commits.length st w

/-- C5: when HEAD equals the pending commit's single parent, the step is
a fast-forward checkout: HEAD moves to the existing commit itself (its
identity is reused) and no commit object is created; when HEAD differs
from the parent, the step is a cherry-pick replay (ending either in a
conflict or in a replayed commit). -/
theorem workStep_checkout_or_replay (r : Repo) (merge : MergeFun) (w : World)
    (c p : Oid) (hp : r.parentsOf c = [p]) :
    (w.head = p →
        workStep r merge w c = ({ w with head := c, dirty := false }, StepOutcome.checkedOut)) ∧
    (w.head ≠ p →
        (∃ paths, (workStep r merge w c).2 = StepOutcome.conflict paths) ∨
        (∃ i, (workStep r merge w c).2 = StepOutcome.replayed i)) := by
  constructor
  · intro hhead
    rw [workStep, hp]
    simp [hhead]
  · intro hhead
    rw [workStep, hp]
    simp only [if_neg hhead]
    cases merge w.head c with
    | clean t => exact Or.inr ⟨_, rfl⟩
    | conflicts paths => exact Or.inl ⟨paths, rfl⟩

theorem workStep_checkout_or_replay_witness :
    workStep walkRepo (fun _ _ => MergeResult.clean "tm")
        ⟨Oid.ext "c1", [], none, none, false⟩ (Oid.ext "c2") =
      (⟨Oid.ext "c2", [], none, none, false⟩, StepOutcome.checkedOut) ∧
    ((∃ paths, (workStep walkRepo (fun _ _ => MergeResult.clean "tm")
        ⟨Oid.ext "base", [], none, none, false⟩ (Oid.ext "c2")).2 =
          StepOutcome.conflict paths) ∨
     (∃ i, (workStep walkRepo (fun _ _ => MergeResult.clean "tm")
        ⟨Oid.ext "base", [], none, none, false⟩ (Oid.ext "c2")).2 =
          StepOutcome.replayed i)) := by
  constructor
  · exact (workStep_checkout_or_replay walkRepo _ _ (Oid.ext "c2") (Oid.ext "c1") rfl).1 rfl
  · exact (workStep_checkout_or_replay walkRepo _
      ⟨Oid.ext "base", [], none, none, false⟩ (Oid.ext "c2") (Oid.ext "c1") rfl).2 (by decide)

/-- C6: a clean cherry-pick replay creates exactly one new commit object
whose author and message are the original commit's, whose committer is
the repository's default signature, and whose sole parent is the HEAD at
the time of the replay; its identifier always differs from the original
commit's identifier, because the parents differ and ids are
content-addressed. -/
theorem workStep_clean_replay (r : Repo) (merge : MergeFun) (w : World)
    (c p : Oid) (t : String) (hp : r.parentsOf c = [p]) (hhead : w.head ≠ p)
    (hm : merge w.head c = MergeResult.clean t) :
    workStep r merge w c =
      ({ w with head := Oid.made (r.authorOf c) r.defaultSig (r.messageOf c) t w.head,
                objects := w.objects ++ [Oid.made (r.authorOf c) r.defaultSig (r.messageOf c) t w.head],
                cherryPickHead := none, dirty := false },
       StepOutcome.replayed (Oid.made (r.authorOf c) r.defaultSig (r.messageOf c) t w.head)) ∧
    r.authorOf (Oid.made (r.authorOf c) r.defaultSig (r.messageOf c) t w.head) = r.authorOf c ∧
    r.messageOf (Oid.made (r.authorOf c) r.defaultSig (r.messageOf c) t w.head) = r.messageOf c ∧
    r.parentsOf (Oid.made (r.authorOf c) r.defaultSig (r.messageOf c) t w.head) = [w.head] ∧
    Oid.made (r.authorOf c) r.defaultSig (r.messageOf c) t w.head ≠ c := by
  refine ⟨?_, rfl, rfl, rfl, ?_⟩
  · rw [workStep, hp]
    simp [hhead, hm]
  · intro heq
    rw [← heq] at hp
    simp only [Repo.parentsOf] at hp
    exact hhead (by injection hp)

theorem workStep_clean_replay_witness :
    workStep walkRepo (fun _ _ => MergeResult.clean "tm")
        ⟨Oid.ext "base", [], none, none, false⟩ (Oid.ext "c2") =
      (⟨Oid.made "al" "sig" "second" "tm" (Oid.ext "base"),
        [Oid.made "al" "sig" "second" "tm" (Oid.ext "base")], none, none, false⟩,
       StepOutcome.replayed (Oid.made "al" "sig" "second" "tm" (Oid.ext "base"))) ∧
    Oid.made "al" "sig" "second" "tm" (Oid.ext "base") ≠ Oid.ext "c2" := by
  have h := workStep_clean_replay walkRepo (fun _ _ => MergeResult.clean "tm")
    ⟨Oid.ext "base", [], none, none, false⟩ (Oid.ext "c2") (Oid.ext "c1") "tm"
    rfl (by decide) rfl
  exact ⟨h.1, h.2.2.2.2⟩

/-- C1 (amended): when replaying the next pending commit `c` conflicts,
the loop pauses in the conflicted state (`CHERRY_PICK_HEAD` set to `c`,
working copy dirty), creates no new commit object and leaves HEAD where
it was, and writes a checkpoint whose pending list is the session's list
with `c` removed — the in-flight commit is recorded only by the
cherry-pick marker, not by the checkpoint. -/
theorem work_conflict_pause (r : Repo) (merge : MergeFun) (build : BuildFun)
    (st : St) (w : World) (c p : Oid) (paths : List String)
    (hlast : st.commits.getLast? = some c)
    (hp : r.parentsOf c = [p]) (hhead : w.head ≠ p)
    (hm : merge w.head c = MergeResult.conflicts paths) :
    work r merge build st w =
      ({ st with commits := st.commits.dropLast },
       { w with cherryPickHead := some c, dirty := true,
                checkpoint := some ⟨st.buildCommand, st.buildDirectory, st.branchName,
                                    st.commits.dropLast⟩ },
       WorkResult.pausedConflict paths, [c]) := by
  obtain ⟨n, hn⟩ : ∃ n, st.commits.length = n + 1 := by
    cases hc : st.commits with
    | nil => rw [hc] at hlast; simp at hlast
    | cons a l => exact ⟨l.length, by simp [hc]⟩
  rw [work, hn]
  simp only [workGo, hlast]
  rw [workStep, hp]
  simp [hhead, hm, saveCheckpoint]

theorem work_conflict_pause_witness :
    work walkRepo (fun _ _ => MergeResult.conflicts ["f.txt"]) (fun _ _ _ _ => true)
        ⟨"", "make -j4", "/src", [Oid.ext "c2"]⟩ ⟨Oid.ext "base", [], none, none, false⟩ =
      (⟨"", "make -j4", "/src", []⟩,
       ⟨Oid.ext "base", [], some (Oid.ext "c2"), some ⟨"make -j4", "/src", "", []⟩, true⟩,
       WorkResult.pausedConflict ["f.txt"], [Oid.ext "c2"]) :=
  work_conflict_pause walkRepo (fun _ _ => MergeResult.conflicts ["f.txt"]) (fun _ _ _ _ => true)
    ⟨"", "make -j4", "/src", [Oid.ext "c2"]⟩ ⟨Oid.ext "base", [], none, none, false⟩
    (Oid.ext "c2") (Oid.ext "c1") ["f.txt"] rfl rfl (by decide) rfl

/-- C1 (counterexample to the claim as stated): in a session whose only
pending commit `c2` conflicts, the loop pauses in the conflicted state
without creating a commit, but the checkpoint written at that moment has
an empty pending list — it does not include the conflicting commit. -/
theorem work_conflict_checkpoint_excludes :
    work walkRepo (fun _ _ => MergeResult.conflicts ["f.txt"]) (fun _ _ _ _ => true)
        ⟨"", "make -j4", "/src", [Oid.ext "c2"]⟩ ⟨Oid.ext "base", [], none, none, false⟩ =
      (⟨"", "make -j4", "/src", []⟩,
       ⟨Oid.ext "base", [], some (Oid.ext "c2"), some ⟨"make -j4", "/src", "", []⟩, true⟩,
       WorkResult.pausedConflict ["f.txt"], [Oid.ext "c2"]) ∧
    Oid.ext "c2" ∉ (Checkpoint.commits ⟨"make -j4", "/src", "", []⟩) := by decide

/-- A list whose last element is `c` is its own front part followed by
`[c]`. -/
theorem eq_dropLast_concat_of_getLast? {α : Type} {l : List α} {c : α}
    (h : l.getLast? = some c) : l = l.dropLast ++ [c] := by
  have hne : l ≠ [] := by intro he; rw [he] at h; simp at h
  have hg := List.getLast?_eq_getLast l hne
  rw [hg] at h
  have hd := List.dropLast_append_getLast hne
  rw [← hd]
  simp [Option.some_inj.mp h]

/-- When every pending commit has a single parent, every merge is clean
and every build passes, the `work` loop takes the commits from the tail
of the list one by one: the processed order is exactly the reverse of
the stored (newest-first) list. -/
theorem workGo_trace (r : Repo) (merge : MergeFun) (build : BuildFun)
    (hmerge : ∀ h c, ∃ t, merge h c = MergeResult.clean t)
    (hbuild : ∀ cmd dir o d, build cmd dir o d = true) :
    ∀ fuel (st : St) (w : World),
      (∀ c ∈ st.commits, ∃ p, r.parentsOf c = [p]) →
      st.commits.length ≤ fuel →
      (workGo r merge build fuel st w).2.2.2 = st.commits.reverse := by
  intro fuel
  induction fuel with
  | zero =>
    intro st w _ hlen
    have : st.commits = [] := List.length_eq_zero.mp (Nat.le_zero.mp hlen)
    simp [workGo, this]
  | succ fuel ih =>
    intro st w hparents hlen
    cases hlast : st.commits.getLast? with
    | none =>
      have : st.commits = [] := List.getLast?_eq_none_iff.mp hlast
      simp [workGo, hlast, this]
    | some c =>
      have hdecomp := eq_dropLast_concat_of_getLast? hlast
      have hmem : c ∈ st.commits := by rw [hdecomp]; simp
      obtain ⟨p, hp⟩ := hparents c hmem
      have hlen' : st.commits.dropLast.length ≤ fuel := by
        rw [hdecomp] at hlen
        simp at hlen
        simpa using hlen
      have hparents' : ∀ c' ∈ st.commits.dropLast, ∃ q, r.parentsOf c' = [q] := by
        intro c' hc'
        exact hparents c' ((List.dropLast_sublist st.commits).mem hc')
      have hrev : st.commits.reverse = c :: st.commits.dropLast.reverse := by
        conv_lhs => rw [hdecomp]
        simp
      rw [workGo]
      simp only [hlast]
      rw [workStep, hp]
      by_cases hh : w.head = p
      · simp only [if_pos hh]
        rw [tryBuild, hbuild]
        rw [ih _ _ hparents' hlen', hrev]
        simp
      · obtain ⟨t, hm⟩ := hmerge w.head c
        simp only [if_neg hh, hm]
        rw [tryBuild, hbuild]
        rw [ih _ _ hparents' hlen', hrev]
        simp

/-- C7: the commit list produced at start is the chain of commits
strictly between the starting point and the tip, newest first and oldest
last, and the replay loop removes commits from the tail of that list, so
they are processed oldest first, in exactly the reverse of the stored
order, never reordered. -/
theorem start_order_and_tail_pop (r : Repo) (merge : MergeFun) (build : BuildFun)
    (start tip : Oid) (ds : List Oid) (fuel : Nat) (st : St) (w : World)
    (hchain : DescChain r start tip ds) (hfuel : ds.length ≤ fuel)
    (hparents : ∀ c ∈ st.commits, ∃ p, r.parentsOf c = [p])
    (hmerge : ∀ h c, ∃ t, merge h c = MergeResult.clean t)
    (hbuild : ∀ cmd dir o d, build cmd dir o d = true) :
    getCommits r start tip fuel = some (Except.ok ds) ∧
    (work r merge build st w).2.2.2 = st.commits.reverse := by
  constructor
  · exact getCommits_of_descChain r start hchain fuel hfuel
  · exact workGo_trace r merge build hmerge hbuild _ st w hparents (Nat.le_refl _)

theorem start_order_and_tail_pop_witness :
    getCommits walkRepo (Oid.ext "base") (Oid.ext "c2") 4 =
      some (Except.ok [Oid.ext "c2", Oid.ext "c1"]) ∧
    (work walkRepo (fun _ _ => MergeResult.clean "t")
        (fun _ _ _ _ => true)
        ⟨"", "make -j4", "/src", [Oid.ext "c2", Oid.ext "c1"]⟩
        ⟨Oid.ext "base", [], none, none, false⟩).2.2.2 =
      [Oid.ext "c1", Oid.ext "c2"] :=
  start_order_and_tail_pop walkRepo (fun _ _ => MergeResult.clean "t") (fun _ _ _ _ => true)
    (Oid.ext "base") (Oid.ext "c2") [Oid.ext "c2", Oid.ext "c1"] 4
    ⟨"", "make -j4", "/src", [Oid.ext "c2", Oid.ext "c1"]⟩
    ⟨Oid.ext "base", [], none, none, false⟩
    (DescChain.cons (by decide) rfl (DescChain.cons (by decide) rfl DescChain.nil))
    (by decide)
    (by intro c hc; fin_cases hc <;> exact ⟨_, rfl⟩)
    (fun h c => ⟨"t", rfl⟩) (fun _ _ _ _ => rfl)

/-- Model of `handleChanges`: stage every working-copy change (the
staged result is the tree `stagedTree`) and commit it.  With no
cherry-pick in progress the current HEAD commit is amended (same author,
same message, the repository's default signature as committer, HEAD's
own parent — modelled for the tool's single-parent domain, `none`
otherwise); with a cherry-pick in progress (`CHERRY_PICK_HEAD` set to
the interrupted commit) a commit is created reusing that commit's
author and message, parented on the current HEAD, and the cherry-pick
marker is cleared.  Committing leaves the working copy clean. -/
def handleChanges (r : Repo) (stagedTree : String) (w : World) : Option World :=
  match w.cherryPickHead with
  | none =>
    match r.parentsOf w.head with
    | [p] =>
      let newId := Oid.made (r.authorOf w.head) r.defaultSig (r.messageOf w.head) stagedTree p
      some { w with head := newId, objects := w.objects ++ [newId], dirty := false }
    | _ => none
  | some c =>
    let newId := Oid.made (r.authorOf c) r.defaultSig (r.messageOf c) stagedTree w.head
    some { w with head := newId, objects := w.objects ++ [newId],
                  cherryPickHead := none, dirty := false }

/-- The session read back from a checkpoint by `readState`. -/
def stOfCheckpoint (cp : Checkpoint) : St :=
  ⟨cp.branchName, cp.buildCommand, cp.buildDirectory, cp.commits⟩

/-- Model of the `continue` flag handling: when the test flag is set on
the command line, the session's build command is replaced by the flag's
value and the build directory by the invoking process's current working
directory; otherwise both stay as read from the checkpoint. -/
def applyTestOverride (testFlag : Option String) (cwd : String) (st : St) : St :=
  match testFlag with
  | some cmd => { st with buildCommand := cmd, buildDirectory := cwd }
  | none => st

/-- How the `continue` action returned. -/
inductive ContinueOutcome where
  | refusedChanges
  | noSession
  | buildFailedExit
  | commitError
  | resumed (res : WorkResult)
deriving DecidableEq, Repr

/-- Model of `appActualAction` with `doContinue = true`: refuse when
changes are present and the automatic flag is absent; fail when no
checkpoint exists; otherwise read the session, apply the test-flag
override, and run the build once against the current working copy
(changes still uncommitted).  If the build fails, exit, leaving the
checkpoint, the working copy and HEAD untouched.  Only if it passes and
changes are present are the changes committed via `handleChanges`; the
loop then resumes.  The `St` component reports the session value at
return (a placeholder on the two exits taken before a session exists). -/
def continueAction (r : Repo) (merge : MergeFun) (build : BuildFun)
    (automatic : Bool) (testFlag : Option String) (cwd stagedTree : String)
    (w : World) : St × World × ContinueOutcome :=
  if w.dirty && !automatic then (⟨"", "", "", []⟩, w, ContinueOutcome.refusedChanges)
  else
    match w.checkpoint with
    | none => (⟨"", "", "", []⟩, w, ContinueOutcome.noSession)
    | some cp =>
      let st := applyTestOverride testFlag cwd (stOfCheckpoint cp)
      if tryBuild build st w.head w.dirty then
        if w.dirty then
          match handleChanges r stagedTree w with
          | none => (st, w, ContinueOutcome.commitError)
          | some w1 =>
            let res := work r merge build st w1
            (res.1, res.2.1, ContinueOutcome.resumed res.2.2.1)
        else
          let res := work r merge build st w
          (res.1, res.2.1, ContinueOutcome.resumed res.2.2.1)
      else (st, w, ContinueOutcome.buildFailedExit)

/-- C2 (amended): `continue --automatic` with uncommitted changes runs
the Build Verifier FIRST, against the still-uncommitted working copy; if
that build fails the session re-pauses with the checkpoint, HEAD, the
changes and the pending list all untouched (nothing is committed and no
pending commit is consumed).  Only when the build passes are the changes
staged and committed — finishing the in-progress cherry-pick with the
original commit's author and message when `CHERRY_PICK_HEAD` is set,
amending HEAD otherwise — after which the loop resumes. -/
theorem continue_automatic_build_first (r : Repo) (merge : MergeFun) (build : BuildFun)
    (testFlag : Option String) (cwd stagedTree : String) (w : World) (cp : Checkpoint)
    (hcp : w.checkpoint = some cp) (hdirty : w.dirty = true) :
    (tryBuild build (applyTestOverride testFlag cwd (stOfCheckpoint cp)) w.head true = false →
        continueAction r merge build true testFlag cwd stagedTree w =
          (applyTestOverride testFlag cwd (stOfCheckpoint cp), w,
           ContinueOutcome.buildFailedExit)) ∧
    (tryBuild build (applyTestOverride testFlag cwd (stOfCheckpoint cp)) w.head true = true →
        ∀ w1, handleChanges r stagedTree w = some w1 →
          continueAction r merge build true testFlag cwd stagedTree w =
            ((work r merge build (applyTestOverride testFlag cwd (stOfCheckpoint cp)) w1).1,
             (work r merge build (applyTestOverride testFlag cwd (stOfCheckpoint cp)) w1).2.1,
             ContinueOutcome.resumed
               (work r merge build (applyTestOverride testFlag cwd (stOfCheckpoint cp)) w1).2.2.1)) ∧
    (∀ c, w.cherryPickHead = some c →
        handleChanges r stagedTree w =
          some { w with
                 head := Oid.made (r.authorOf c) r.defaultSig (r.messageOf c) stagedTree w.head,
                 objects := w.objects ++
                   [Oid.made (r.authorOf c) r.defaultSig (r.messageOf c) stagedTree w.head],
                 cherryPickHead := none, dirty := false }) ∧
    (∀ p, w.cherryPickHead = none → r.parentsOf w.head = [p] →
        handleChanges r stagedTree w =
          some { w with
                 head := Oid.made (r.authorOf w.head) r.defaultSig (r.messageOf w.head) stagedTree p,
                 objects := w.objects ++
                   [Oid.made (r.authorOf w.head) r.defaultSig (r.messageOf w.head) stagedTree p],
                 dirty := false }) := by
  refine ⟨?_, ?_, ?_, ?_⟩
  · intro hb
    rw [continueAction, hdirty]
    simp only [Bool.not_true, Bool.and_false, Bool.false_eq_true, if_false, hcp]
    rw [hb]
    simp
  · intro hb w1 hw1
    rw [continueAction, hdirty]
    simp only [Bool.not_true, Bool.and_false, Bool.false_eq_true, if_false, hcp]
    rw [hb]
    simp only [if_true, hdirty, hw1]
  · intro c hc
    rw [handleChanges, hc]
  · intro p hc hp
    rw [handleChanges, hc, hp]

/-- Concrete dirty world paused on a conflicted cherry-pick of `c2`,
with an empty remaining pending list in the checkpoint. -/
def pausedWorld : World :=
  ⟨Oid.ext "base", [], some (Oid.ext "c2"), some ⟨"make -j4", "/src", "", []⟩, true⟩

theorem continue_automatic_build_first_witness :
    continueAction walkRepo (fun _ _ => MergeResult.clean "t") (fun _ _ _ _ => true)
        true none "/cwd" "tr" pausedWorld =
      (⟨"", "make -j4", "/src", []⟩,
       ⟨Oid.made "al" "sig" "second" "tr" (Oid.ext "base"),
        [Oid.made "al" "sig" "second" "tr" (Oid.ext "base")], none, none, false⟩,
       ContinueOutcome.resumed WorkResult.done) := by
  have h := continue_automatic_build_first walkRepo (fun _ _ => MergeResult.clean "t")
    (fun _ _ _ _ => true) none "/cwd" "tr" pausedWorld ⟨"make -j4", "/src", "", []⟩ rfl rfl
  have h1 := h.2.1 rfl
    ⟨Oid.made "al" "sig" "second" "tr" (Oid.ext "base"),
     [Oid.made "al" "sig" "second" "tr" (Oid.ext "base")], none,
     some ⟨"make -j4", "/src", "", []⟩, false⟩ rfl
  rw [h1]
  decide

/-- C2 (counterexample to the claim as stated): with uncommitted changes
and the automatic flag, when the build fails the tool exits having
committed NOTHING — the working copy is still dirty, the interrupted
cherry-pick marker is still set, HEAD and the checkpoint are untouched —
so the staging-and-committing step does not happen before the Build
Verifier runs; the verifier runs first. -/
theorem continue_automatic_no_commit_on_failure :
    continueAction walkRepo (fun _ _ => MergeResult.clean "t") (fun _ _ _ _ => false)
        true none "/cwd" "tr" pausedWorld =
      (⟨"", "make -j4", "/src", []⟩, pausedWorld, ContinueOutcome.buildFailedExit) ∧
    pausedWorld.dirty = true ∧ pausedWorld.cherryPickHead = some (Oid.ext "c2") := by
  decide

/-- C10: at `continue`, supplying the test-command flag overwrites both
the session's build command (with the flag value) and its build
directory (with the invoking process's current working directory), while
leaving branch name and pending commits as checkpointed; with the flag
absent the whole session, build command and build directory included, is
exactly as read from the checkpoint. -/
theorem continue_test_flag_override (cp : Checkpoint) (cmd cwd : String) :
    (applyTestOverride (some cmd) cwd (stOfCheckpoint cp)).buildCommand = cmd ∧
    (applyTestOverride (some cmd) cwd (stOfCheckpoint cp)).buildDirectory = cwd ∧
    (applyTestOverride (some cmd) cwd (stOfCheckpoint cp)).branchName = cp.branchName ∧
    (applyTestOverride (some cmd) cwd (stOfCheckpoint cp)).commits = cp.commits ∧
    applyTestOverride none cwd (stOfCheckpoint cp) = stOfCheckpoint cp :=
  ⟨rfl, rfl, rfl, rfl, rfl⟩

/-- How the `abort` action returned. -/
inductive AbortOutcome where
  | aborted
  | noSession
  | refusedChanges
deriving DecidableEq, Repr

/-- Model of `abortAction`: reading the state fails when no checkpoint
exists (no session); with a session but uncommitted changes, refuse and
change nothing; otherwise check out the first (newest) still-pending
commit — restoring the position from before the in-flight attempt — and
delete the checkpoint.  With an empty pending list no checkout happens
and only the checkpoint is deleted. -/
def abortAction (w : World) : World × AbortOutcome :=
  match w.checkpoint with
  | none => (w, AbortOutcome.noSession)
  | some cp =>
    if w.dirty then (w, AbortOutcome.refusedChanges)
    else
      match cp.commits with
      | [] => ({ w with checkpoint := none }, AbortOutcome.aborted)
      | c :: _ => ({ w with head := c, checkpoint := none }, AbortOutcome.aborted)

/-- C8: with a persisted session whose pending list is nonempty and a
clean working copy, `abort` moves HEAD to the newest still-pending
commit (the head of the newest-first list) and deletes the checkpoint;
with uncommitted changes it refuses and changes nothing; with no
persisted session it fails with the no-session error — in particular a
second abort right after a successful one fails that way. -/
theorem abort_behaviour (w : World) (cp : Checkpoint) (c : Oid) (rest : List Oid)
    (hcp : w.checkpoint = some cp) (hcs : cp.commits = c :: rest) :
    (w.dirty = false →
        abortAction w = ({ w with head := c, checkpoint := none }, AbortOutcome.aborted) ∧
        (abortAction (abortAction w).1).2 = AbortOutcome.noSession) ∧
    (w.dirty = true → abortAction w = (w, AbortOutcome.refusedChanges)) ∧
    (∀ w2 : World, w2.checkpoint = none → abortAction w2 = (w2, AbortOutcome.noSession)) := by
  refine ⟨?_, ?_, ?_⟩
  · intro hclean
    have h1 : abortAction w = ({ w with head := c, checkpoint := none }, AbortOutcome.aborted) := by
      rw [abortAction, hcp]
      simp [hclean, hcs]
    refine ⟨h1, ?_⟩
    rw [h1, abortAction]
  · intro hd
    rw [abortAction, hcp]
    simp [hd]
  · intro w2 h2
    rw [abortAction, h2]

theorem abort_behaviour_witness :
    abortAction ⟨Oid.ext "c1", [], none, some ⟨"make -j4", "/src", "", [Oid.ext "c2"]⟩, false⟩ =
      (⟨Oid.ext "c2", [], none, none, false⟩, AbortOutcome.aborted) ∧
    (abortAction ⟨Oid.ext "c2", [], none, none, false⟩).2 = AbortOutcome.noSession ∧
    abortAction ⟨Oid.ext "c1", [], none, some ⟨"make -j4", "/src", "", [Oid.ext "c2"]⟩, true⟩ =
      (⟨Oid.ext "c1", [], none, some ⟨"make -j4", "/src", "", [Oid.ext "c2"]⟩, true⟩,
       AbortOutcome.refusedChanges) := by
  have hclean := abort_behaviour
    ⟨Oid.ext "c1", [], none, some ⟨"make -j4", "/src", "", [Oid.ext "c2"]⟩, false⟩
    ⟨"make -j4", "/src", "", [Oid.ext "c2"]⟩ (Oid.ext "c2") [] rfl rfl
  have hdirty := abort_behaviour
    ⟨Oid.ext "c1", [], none, some ⟨"make -j4", "/src", "", [Oid.ext "c2"]⟩, true⟩
    ⟨"make -j4", "/src", "", [Oid.ext "c2"]⟩ (Oid.ext "c2") [] rfl rfl
  refine ⟨(hclean.1 rfl).1, ?_, hdirty.2.1 rfl⟩
  have h2 := (hclean.1 rfl).2
  rw [(hclean.1 rfl).1] at h2
  exact h2

/-- Whitespace in the sense of Go's `unicode.IsSpace`, restricted to the
code points it recognises in Latin-1: space, tab, newline, vertical tab,
form feed, carriage return, next line, and no-break space. -/
def isGoSpace (c : Char) : Bool :=
  c = ' ' || c = '\t' || c = '\n' || c.val = 11 || c.val = 12 || c = '\r' ||
    c.val = 133 || c.val = 160

/-- Emit the accumulated (reversed) run as a field, unless it is
empty. -/
def flushAcc (acc : List Char) (rest : List (List Char)) : List (List Char) :=
  match acc with
  | [] => rest
  | _ => acc.reverse :: rest

/-- Splitting engine of Go's `strings.Fields`: scan the characters,
accumulating the current run of non-space characters (reversed) in
`acc`, and emit a field at each space and at the end. -/
def fieldsAux : List Char → List Char → List (List Char)
  | [], acc => flushAcc acc []
  | ch :: cs, acc =>
    if isGoSpace ch then flushAcc acc (fieldsAux cs [])
    else fieldsAux cs (ch :: acc)

theorem flushAcc_nil (rest : List (List Char)) : flushAcc [] rest = rest := rfl

theorem flushAcc_ne_nil (acc : List Char) (hacc : acc ≠ []) (rest : List (List Char)) :
    flushAcc acc rest = acc.reverse :: rest := by
  cases acc with
  | nil => exact absurd rfl hacc
  | cons a l => rfl

/-- Go's `strings.Fields`: the maximal runs of non-space characters. -/
def goFields (s : String) : List String := (fieldsAux s.data []).map String.mk

/-- Go's `strings.TrimSpace`: remove leading and trailing whitespace. -/
def goTrim (s : String) : String :=
  String.mk (((s.data.dropWhile isGoSpace).reverse.dropWhile isGoSpace).reverse)

/-- The commit-list parser of `readCommitsFromFile`: trim the file
contents, then split into whitespace-separated fields. -/
def parseCommits (s : String) : List String := goFields (goTrim s)

/-- Concatenation with newline separators at the character level
(Go's `strings.Join(ids, "\n")`). -/
def joinLinesData : List (List Char) → List Char
  | [] => []
  | [x] => x
  | x :: xs => x ++ '\n' :: joinLinesData xs

/-- Go's `strings.Join(ids, "\n")`, the serialisation `writeState` uses
for the pending-commit list. -/
def joinLines (ids : List String) : String :=
  String.mk (joinLinesData (ids.map String.data))

/-- A well-formed commit identifier string: nonempty and free of
whitespace (true of the hex object ids git produces). -/
def validId (s : String) : Bool :=
  !s.data.isEmpty && s.data.all (fun c => !isGoSpace c)

theorem fieldsAux_nonspace_run (w : List Char) (hw : ∀ c ∈ w, isGoSpace c = false) :
    ∀ s acc, fieldsAux (w ++ s) acc = fieldsAux s (w.reverse ++ acc) := by
  induction w with
  | nil => intro s acc; simp
  | cons ch w ih =>
    intro s acc
    have hch : isGoSpace ch = false := hw ch (by simp)
    rw [List.cons_append, fieldsAux, hch]
    simp only [Bool.false_eq_true, if_false]
    rw [ih (fun c hc => hw c (by simp [hc])) s (ch :: acc)]
    simp

theorem fieldsAux_spaces_nil (t : List Char) (ht : ∀ c ∈ t, isGoSpace c = true) :
    fieldsAux t [] = [] := by
  induction t with
  | nil => rfl
  | cons ch t ih =>
    rw [fieldsAux, ht ch (by simp)]
    simp only [if_true]
    rw [flushAcc_nil]
    exact ih (fun c hc => ht c (by simp [hc]))

theorem fieldsAux_spaces_acc (t : List Char) (acc : List Char) (hacc : acc ≠ [])
    (ht : ∀ c ∈ t, isGoSpace c = true) : fieldsAux t acc = [acc.reverse] := by
  induction t with
  | nil => rw [fieldsAux, flushAcc_ne_nil acc hacc]
  | cons ch t ih =>
    rw [fieldsAux, ht ch (by simp)]
    simp only [if_true]
    rw [fieldsAux_spaces_nil t (fun c hc => ht c (by simp [hc])), flushAcc_ne_nil acc hacc]

theorem fieldsAux_dropWhile_leading (l : List Char) :
    fieldsAux (l.dropWhile isGoSpace) [] = fieldsAux l [] := by
  induction l with
  | nil => rfl
  | cons ch l ih =>
    by_cases h : isGoSpace ch = true
    · rw [List.dropWhile_cons_of_pos h, ih, fieldsAux, h]
      simp [flushAcc_nil]
    · rw [List.dropWhile_cons_of_neg h]

theorem fieldsAux_trailing_spaces (t : List Char) (ht : ∀ c ∈ t, isGoSpace c = true) :
    ∀ l acc, fieldsAux (l ++ t) acc = fieldsAux l acc := by
  intro l
  induction l with
  | nil =>
    intro acc
    rw [List.nil_append]
    cases acc with
    | nil => rw [fieldsAux_spaces_nil t ht]; rfl
    | cons a as =>
      rw [fieldsAux_spaces_acc t (a :: as) (by simp) ht, fieldsAux,
        flushAcc_ne_nil (a :: as) (by simp)]
  | cons ch l ih =>
    intro acc
    rw [List.cons_append, fieldsAux, fieldsAux]
    by_cases h : isGoSpace ch = true
    · rw [h]
      simp only [if_true]
      rw [ih []]
    · rw [Bool.not_eq_true] at h
      rw [h]
      simp only [Bool.false_eq_true, if_false]
      exact ih (ch :: acc)

theorem fieldsAux_goTrim (s : String) :
    fieldsAux (goTrim s).data [] = fieldsAux s.data [] := by
  show fieldsAux (((s.data.dropWhile isGoSpace).reverse.dropWhile isGoSpace).reverse) [] = _
  rw [← fieldsAux_dropWhile_leading s.data]
  have hdecomp : s.data.dropWhile isGoSpace =
      ((s.data.dropWhile isGoSpace).reverse.dropWhile isGoSpace).reverse ++
      ((s.data.dropWhile isGoSpace).reverse.takeWhile isGoSpace).reverse := by
    conv_lhs => rw [← List.reverse_reverse (s.data.dropWhile isGoSpace)]
    conv_lhs => rw [← List.takeWhile_append_dropWhile (p := isGoSpace)
      (l := (s.data.dropWhile isGoSpace).reverse)]
    rw [List.reverse_append]
  conv_rhs => rw [hdecomp]
  rw [fieldsAux_trailing_spaces]
  intro c hc
  rw [List.mem_reverse] at hc
  exact List.mem_takeWhile_imp hc

theorem fieldsAux_joinLinesData (ids : List (List Char))
    (h : ∀ l ∈ ids, l ≠ [] ∧ ∀ c ∈ l, isGoSpace c = false) :
    fieldsAux (joinLinesData ids) [] = ids := by
  induction ids with
  | nil => rfl
  | cons x xs ih =>
    obtain ⟨hx, hxs⟩ := h x (by simp)
    cases xs with
    | nil =>
      show fieldsAux x [] = [x]
      rw [← List.append_nil x, fieldsAux_nonspace_run x hxs [] [], fieldsAux,
        flushAcc_ne_nil (x.reverse ++ []) (by simpa using hx)]
      simp
    | cons y ys =>
      show fieldsAux (x ++ '\n' :: joinLinesData (y :: ys)) [] = x :: y :: ys
      rw [fieldsAux_nonspace_run x hxs, fieldsAux]
      have hnl : isGoSpace '\n' = true := by decide
      rw [hnl]
      simp only [if_true]
      rw [flushAcc_ne_nil (x.reverse ++ []) (by simpa using hx)]
      rw [ih (fun l hl => h l (by simp [hl]))]
      simp

/-- Round trip of the pending-commit serialisation: joining well-formed
ids with newlines, trimming and splitting on whitespace gives back
exactly the original ids in order. -/
theorem parseCommits_joinLines (ids : List String)
    (h : ∀ id ∈ ids, validId id = true) :
    parseCommits (joinLines ids) = ids := by
  rw [parseCommits, goFields, fieldsAux_goTrim]
  show (fieldsAux (joinLinesData (ids.map String.data)) []).map String.mk = ids
  rw [fieldsAux_joinLinesData]
  · rw [List.map_map]
    have : (String.mk ∘ String.data) = id := by
      funext s
      rfl
    rw [this, List.map_id]
  · intro l hl
    rw [List.mem_map] at hl
    obtain ⟨idStr, hid, hEq⟩ := hl
    have hv := h idStr hid
    rw [validId, Bool.and_eq_true] at hv
    subst hEq
    constructor
    · intro he
      rw [← List.isEmpty_iff] at he
      simp [he] at hv
    · intro c hc
      have := hv.2
      rw [List.all_eq_true] at this
      simpa using this c hc

/-- Contents of the tool's state directory, one optional entry per state
file (`none` means the file does not exist, so reading it fails). -/
structure StateDir where
  buildCommandFile : Option String
  buildDirectoryFile : Option String
  branchFile : Option String
  commitsFile : Option String
deriving DecidableEq, Repr

/-- A session as persisted and reloaded by the checkpoint store: the
three raw strings plus the commit-id strings, newest first. -/
structure PersistedSession where
  buildCommand : String
  buildDirectory : String
  branchName : String
  commitIds : List String
deriving DecidableEq, Repr

/-- The file operations `writeState` performs, in source order: create
the state directory (no file contents change), then write the
build-command, build-directory, branch and commits files, each with a
plain truncating write. -/
def writeStateOps (s : PersistedSession) : List (StateDir → StateDir) :=
  [ fun d => d,
    fun d => { d with buildCommandFile := some s.buildCommand },
    fun d => { d with buildDirectoryFile := some s.buildDirectory },
    fun d => { d with branchFile := some s.branchName },
    fun d => { d with commitsFile := some (joinLines s.commitIds) } ]

/-- Apply a sequence of file operations to the state directory. -/
def applyOps (ops : List (StateDir → StateDir)) (d : StateDir) : StateDir :=
  ops.foldl (fun d f => f d) d

/-- Model of `writeState`: all five operations run to completion. -/
def writeState (s : PersistedSession) (d : StateDir) : StateDir :=
  applyOps (writeStateOps s) d

/-- The state directory left behind when the process is killed after the
first `k` operations of a `writeState`. -/
def crashDuringWrite (s : PersistedSession) (d : StateDir) (k : Nat) : StateDir :=
  applyOps ((writeStateOps s).take k) d

/-- Model of `readState`: read the four state files (failing when any is
missing) and parse the commits file by trimming and splitting on
whitespace; the three other fields are taken verbatim. -/
def readState (d : StateDir) : Option PersistedSession :=
  match d.buildCommandFile, d.buildDirectoryFile, d.branchFile, d.commitsFile with
  | some cmd, some dir, some br, some cms => some ⟨cmd, dir, br, parseCommits cms⟩
  | _, _, _, _ => none

/-- A state directory with no files, as before the first `writeState`
(or after `deleteState`). -/
def emptyStateDir : StateDir := ⟨none, none, none, none⟩

/-- C4: saving a session and loading it back reproduces it exactly —
same build command, same build directory, same branch name, and the same
commit identifiers in the same order — whatever state directory the save
overwrote, provided the commit identifiers are well formed (nonempty and
whitespace-free, as git hex object ids are). -/
theorem writeState_readState_round_trip (s : PersistedSession) (d : StateDir)
    (h : ∀ id ∈ s.commitIds, validId id = true) :
    readState (writeState s d) = some s := by
  cases s with
  | mk cmd dir br ids =>
    have e : readState (writeState ⟨cmd, dir, br, ids⟩ d) =
        some ⟨cmd, dir, br, parseCommits (joinLines ids)⟩ := rfl
    rw [e, parseCommits_joinLines ids h]

theorem writeState_readState_round_trip_witness :
    readState (writeState ⟨"make check", "/home/u/src", "refs/heads/dev",
        ["0a1b", "2c3d", "4e5f"]⟩ emptyStateDir) =
      some ⟨"make check", "/home/u/src", "refs/heads/dev", ["0a1b", "2c3d", "4e5f"]⟩ :=
  writeState_readState_round_trip
    ⟨"make check", "/home/u/src", "refs/heads/dev", ["0a1b", "2c3d", "4e5f"]⟩
    emptyStateDir (by decide)

/-- The session that `readState` reconstructs after `writeState` of
`sNew` over a complete checkpoint of `sOld` was cut off after `k`
operations: the files already written hold the new values, the rest keep
the old ones (operation 1 is the directory creation, operations 2–5 the
four file writes in source order). -/
def mixedAt (sNew sOld : PersistedSession) (k : Nat) : PersistedSession :=
  ⟨if 2 ≤ k then sNew.buildCommand else sOld.buildCommand,
   if 3 ≤ k then sNew.buildDirectory else sOld.buildDirectory,
   if 4 ≤ k then sNew.branchName else sOld.branchName,
   if 5 ≤ k then sNew.commitIds else sOld.commitIds⟩

/-- C9 (amended): `writeState` is not atomic.  It writes the four fields
each to its own file, in a fixed order (command, directory, branch,
commits), with plain truncating writes and no temp-file-and-rename.
When the process is killed mid-save OVER AN EXISTING checkpoint, the
directory holds the already-written new fields and the old values of the
rest, and `readState` accepts that interleaving as a valid session.
Only a first save into an empty state directory leaves a crash
detectable: there `readState` fails while any file is still missing. -/
theorem crashDuringWrite_characterisation (sOld sNew : PersistedSession) (k : Nat)
    (hOld : ∀ id ∈ sOld.commitIds, validId id = true)
    (hNew : ∀ id ∈ sNew.commitIds, validId id = true) :
    readState (crashDuringWrite sNew (writeState sOld emptyStateDir) k) =
      some (mixedAt sNew sOld k) ∧
    (k ≤ 4 → readState (crashDuringWrite sNew emptyStateDir k) = none) := by
  have hparseOld := parseCommits_joinLines sOld.commitIds hOld
  have hparseNew := parseCommits_joinLines sNew.commitIds hNew
  match k with
  | 0 =>
    refine ⟨?_, fun _ => rfl⟩
    have e : readState (crashDuringWrite sNew (writeState sOld emptyStateDir) 0) =
        some ⟨sOld.buildCommand, sOld.buildDirectory, sOld.branchName,
              parseCommits (joinLines sOld.commitIds)⟩ := rfl
    rw [e, hparseOld]
    rfl
  | 1 =>
    refine ⟨?_, fun _ => rfl⟩
    have e : readState (crashDuringWrite sNew (writeState sOld emptyStateDir) 1) =
        some ⟨sOld.buildCommand, sOld.buildDirectory, sOld.branchName,
              parseCommits (joinLines sOld.commitIds)⟩ := rfl
    rw [e, hparseOld]
    rfl
  | 2 =>
    refine ⟨?_, fun _ => rfl⟩
    have e : readState (crashDuringWrite sNew (writeState sOld emptyStateDir) 2) =
        some ⟨sNew.buildCommand, sOld.buildDirectory, sOld.branchName,
              parseCommits (joinLines sOld.commitIds)⟩ := rfl
    rw [e, hparseOld]
    rfl
  | 3 =>
    refine ⟨?_, fun _ => rfl⟩
    have e : readState (crashDuringWrite sNew (writeState sOld emptyStateDir) 3) =
        some ⟨sNew.buildCommand, sNew.buildDirectory, sOld.branchName,
              parseCommits (joinLines sOld.commitIds)⟩ := rfl
    rw [e, hparseOld]
    rfl
  | 4 =>
    refine ⟨?_, fun _ => rfl⟩
    have e : readState (crashDuringWrite sNew (writeState sOld emptyStateDir) 4) =
        some ⟨sNew.buildCommand, sNew.buildDirectory, sNew.branchName,
              parseCommits (joinLines sOld.commitIds)⟩ := rfl
    rw [e, hparseOld]
    rfl
  | n + 5 =>
    refine ⟨?_, fun hle => absurd hle (by omega)⟩
    have htake : (writeStateOps sNew).take (n + 5) = writeStateOps sNew := by
      apply List.take_of_length_le
      simp [writeStateOps]
    rw [crashDuringWrite, htake]
    have e : readState (applyOps (writeStateOps sNew) (writeState sOld emptyStateDir)) =
        some ⟨sNew.buildCommand, sNew.buildDirectory, sNew.branchName,
              parseCommits (joinLines sNew.commitIds)⟩ := rfl
    rw [e, hparseNew]
    have h2 : 2 ≤ n + 5 := by omega
    have h3 : 3 ≤ n + 5 := by omega
    have h4 : 4 ≤ n + 5 := by omega
    have h5 : 5 ≤ n + 5 := by omega
    simp [mixedAt, h2, h3, h4, h5]

theorem crashDuringWrite_characterisation_witness :
    readState (crashDuringWrite ⟨"cmdB", "dirB", "brB", ["bbb"]⟩
        (writeState ⟨"cmdA", "dirA", "brA", ["aaa"]⟩ emptyStateDir) 3) =
      some ⟨"cmdB", "dirB", "brA", ["aaa"]⟩ ∧
    readState (crashDuringWrite ⟨"cmdB", "dirB", "brB", ["bbb"]⟩ emptyStateDir 3) = none := by
  have h := crashDuringWrite_characterisation ⟨"cmdA", "dirA", "brA", ["aaa"]⟩
    ⟨"cmdB", "dirB", "brB", ["bbb"]⟩ 3 (by decide) (by decide)
  exact ⟨h.1, h.2 (by omega)⟩

/-- C9 (counterexample to the claim as stated): killing the process
during a save over an existing checkpoint — here after the directory
creation and the build-command write — leaves an interleaving of the new
build command with the old directory, branch and commit list, and
`readState` loads that torn mix as a perfectly valid session that equals
neither the previous checkpoint nor the one being saved. -/
theorem crashDuringWrite_torn_mix_loaded :
    readState (crashDuringWrite ⟨"cmdB", "dirB", "brB", ["bbb"]⟩
        (writeState ⟨"cmdA", "dirA", "brA", ["aaa"]⟩ emptyStateDir) 2) =
      some ⟨"cmdB", "dirA", "brA", ["aaa"]⟩ ∧
    (⟨"cmdB", "dirA", "brA", ["aaa"]⟩ : PersistedSession) ≠
      ⟨"cmdA", "dirA", "brA", ["aaa"]⟩ ∧
    (⟨"cmdB", "dirA", "brA", ["aaa"]⟩ : PersistedSession) ≠
      ⟨"cmdB", "dirB", "brB", ["bbb"]⟩ := by
  decide

end GitPolishHistory
